import Mathlib

/-!
Shallow embedding of the rule-processing scripts of the repository
(`.github/scripts/generate_rules.py`, `.github/scripts/process_rules.py`,
`.github/scripts/update_rules.py`).

Strings are modelled as Lean `String` (a structure around `List Char`);
Python string primitives (`strip`, `split`, `lower`, `upper`, substring
membership) are implemented on the underlying character lists.
`str.lower` / `str.upper` are modelled ASCII-wise via `Char.toLower` /
`Char.toUpper`, which agrees with Python on the ASCII rule text this
program processes.  Python dictionaries are modelled as association
lists with in-place update (dict insertion-order semantics), and
Python `sorted` on strings as insertion sort with respect to the
code-point lexicographic order on `String` (the order Python uses);
since that order is total and antisymmetric, the sorted result is the
same list Python produces.
-/

/-- Whitespace stripped by Python `str.strip` (the ASCII whitespace set). -/
def isPySpace (c : Char) : Bool :=
  c = ' ' || c = '\t' || c = '\n' || c = '\r' || c = '\x0b' || c = '\x0c'

/-- Python `str.strip` on the underlying character list. -/
def stripL (l : List Char) : List Char :=
  ((l.dropWhile isPySpace).reverse.dropWhile isPySpace).reverse

/-- Python `str.strip`. -/
def pyStrip (s : String) : String := ⟨stripL s.data⟩

/-- Python `str.lower` (ASCII letters). -/
def lowerS (s : String) : String := ⟨s.data.map Char.toLower⟩

/-- Python `str.upper` (ASCII letters). -/
def upperS (s : String) : String := ⟨s.data.map Char.toUpper⟩

/-- `startsWithL l p`: `p` is a prefix of `l` (Python `str.startswith`). -/
def startsWithL : List Char → List Char → Bool
  | _, [] => true
  | [], _ :: _ => false
  | c :: cs, d :: ds => c = d && startsWithL cs ds

/-- Python substring membership `sub in l`. -/
def containsSubL (sub : List Char) : List Char → Bool
  | [] => startsWithL [] sub
  | c :: cs => startsWithL (c :: cs) sub || containsSubL sub cs

/-- Python `s.split(sep, 1)`: the part before the first separator and,
when a separator occurs, the part after it. -/
def splitOnce (sep : Char) : List Char → List Char × Option (List Char)
  | [] => ([], none)
  | c :: cs =>
    if c = sep then ([], some cs)
    else
      let r := splitOnce sep cs
      (c :: r.1, r.2)

/-- Python `s.split(sep)` (full split; note `''.split(sep) == ['']`). -/
def splitAllL (sep : Char) : List Char → List (List Char)
  | [] => [[]]
  | c :: cs =>
    if c = sep then [] :: splitAllL sep cs
    else
      match splitAllL sep cs with
      | [] => [[c]]
      | p :: ps => (c :: p) :: ps

/-- Python `sep.join` for a one-character separator. -/
def joinSep (sep : Char) : List (List Char) → List Char
  | [] => []
  | [p] => p
  | p :: q :: ps => p ++ sep :: joinSep sep (q :: ps)

/-- One octet of the IPv4 pattern followed by a literal dot:
consumes `\d{1,3}\.` and returns the remainder (`\d` as ASCII digits). -/
def octetDot (l : List Char) : Option (List Char) :=
  let n := (l.takeWhile Char.isDigit).length
  let r := l.dropWhile Char.isDigit
  if 1 ≤ n ∧ n ≤ 3 then
    match r with
    | '.' :: rest => some rest
    | _ => none
  else none

/-- Full match of the pattern `^\d{1,3}\.\d{1,3}\.\d{1,3}\.\d{1,3}(?:/\d{1,2})?$`
used by `parse_rule`.  It is only ever applied to stripped values, where the
trailing `$` means end of string. -/
def matchIPv4 (l : List Char) : Bool :=
  match octetDot l with
  | none => false
  | some r1 =>
    match octetDot r1 with
    | none => false
    | some r2 =>
      match octetDot r2 with
      | none => false
      | some r3 =>
        let n4 := (r3.takeWhile Char.isDigit).length
        let r4 := r3.dropWhile Char.isDigit
        decide (1 ≤ n4) && decide (n4 ≤ 3) &&
          (match r4 with
           | [] => true
           | '/' :: r5 =>
             let n5 := (r5.takeWhile Char.isDigit).length
             decide (1 ≤ n5) && decide (n5 ≤ 2) && (r5.dropWhile Char.isDigit).isEmpty
           | _ => false)

/-- The comparison Python's `sorted` uses on strings: lexicographic by code
point.  It is modelled as the lexicographic order on the underlying
character lists, which is exactly Lean's `String ≤` (`strLE_iff_le` below)
but, unlike it, evaluates inside the kernel. -/
def strLE (a b : String) : Prop := a.data ≤ b.data

instance : DecidableRel strLE := fun a b => inferInstanceAs (Decidable (a.data ≤ b.data))

namespace GenerateRules

/-- `generate_rules.parse_rule`: parse a rule line into `(type, value)`,
ignoring comments and empty lines, inferring a type for one-field lines. -/
def parse_rule (line : String) : Option (String × String) :=
  let l := stripL line.data
  if l = [] then none
  else if startsWithL l ['#'] || startsWithL l [';'] || startsWithL l ['/', '/'] ||
      startsWithL l ['!'] then none
  else
    match splitOnce ',' l with
    | (p0, some p1) =>
      let t : String := upperS ⟨stripL p0⟩
      let v : String := ⟨stripL p1⟩
      if t ≠ "" ∧ v ≠ "" then some (t, v) else none
    | (p0, none) =>
      let v : List Char := stripL p0
      if v = [] then none
      else if matchIPv4 v then some ("IP-CIDR", ⟨v⟩)
      else if v.contains ':' && v.contains '/' then some ("IP-CIDR6", ⟨v⟩)
      else if v.contains '.' then some ("DOMAIN", ⟨v⟩)
      else none

/-- `RULE_PRIORITY.get(rule_type, 0)`; unknown kinds default to `0`. -/
def rulePriority (t : String) : Int :=
  if t = "URL-REGEX" then 3
  else if t = "DOMAIN-REGEX" then 3
  else if t = "DOMAIN-SUFFIX" then 2
  else if t = "DOMAIN" then 1
  else if t = "IP-CIDR" then 0
  else if t = "IP-CIDR6" then 0
  else if t = "GEOIP" then 0
  else 0

/-- The dictionary key used by `deduplicate_rules`:
`value.lower() if "DOMAIN" in rule_type else value`. -/
def normKey (t v : String) : String :=
  if containsSubL "DOMAIN".data t.data then lowerS v else v

/-- Association-list lookup (Python `dict` lookup / `get`). -/
def lookupA {β : Type} (k : String) : List (String × β) → Option β
  | [] => none
  | (k', v) :: rest => if k' = k then some v else lookupA k rest

/-- Association-list assignment (Python `dict[k] = v`: in-place update when
the key exists, append otherwise — dict insertion order). -/
def updateA {β : Type} (k : String) (v : β) : List (String × β) → List (String × β)
  | [] => [(k, v)]
  | (k', v') :: rest => if k' = k then (k, v) :: rest else (k', v') :: updateA k v rest

/-- The priority of an optional stored entry: `-1` when absent (the default
of `unique_rules_by_value.get(normalized_value, (-1, None))`). -/
def optPrio (cur : Option (Int × String)) : Int :=
  match cur with
  | none => -1
  | some pr => pr.1

/-- `unique_rules_by_value.get(normalized_value, (-1, None))`: the stored
priority for a key, `-1` when the key is absent. -/
def curPrio (k : String) (st : List (String × Int × String)) : Int :=
  optPrio (lookupA k st)

/-- One iteration of pass 1 of `deduplicate_rules`: exact-value
deduplication by priority (state maps normalized value to
`(priority, original rule string)`). -/
def insertRule (st : List (String × Int × String)) (r : String) :
    List (String × Int × String) :=
  match parse_rule r with
  | none => st
  | some (t, v) =>
    if rulePriority t > curPrio (normKey t v) st then
      updateA (normKey t v) (rulePriority t, r) st
    else if rulePriority t = curPrio (normKey t v) st ∧ t = "DOMAIN-SUFFIX" ∧
        "DOMAIN," ++ v = r then
      updateA (normKey t v) (rulePriority t, "DOMAIN-SUFFIX," ++ v) st
    else st

/-- Pass 1 of `deduplicate_rules` (`unique_rules_by_value`). -/
def pass1 (rules : List String) : List (String × Int × String) :=
  rules.foldl insertRule []

/-- The entries of the `domain_suffix_priorities` comprehension: for each
surviving `DOMAIN-SUFFIX` rule, its lowercased key with its stored priority. -/
def suffixCands (st : List (String × Int × String)) : List (String × Int) :=
  st.filterMap fun e =>
    match parse_rule e.2.2 with
    | some (t, _) => if t = "DOMAIN-SUFFIX" then some (lowerS e.1, e.2.1) else none
    | none => none

/-- `domain_suffix_priorities`: lowercased values of surviving
`DOMAIN-SUFFIX` rules mapped to their stored priority (a dict built from
the comprehension entries in order). -/
def suffixMap (st : List (String × Int × String)) : List (String × Int) :=
  (suffixCands st).foldl (fun m kv => updateA kv.1 kv.2 m) []

/-- The parent suffixes probed by pass 2:
`'.'.join(parts[i+1:])` for `i in range(len(parts)-1)`. -/
def parentSuffixes (d : String) : List String :=
  let parts := splitAllL '.' d.data
  (List.range (parts.length - 1)).map fun i => ⟨joinSep '.' (parts.drop (i + 1))⟩

/-- The pass-2 coverage test for a `DOMAIN` rule of priority `p` with
lowercased value `dLower`: some parent suffix is an accepted
`DOMAIN-SUFFIX` whose stored priority is `≥ p`. -/
def coveredBySuffix (m : List (String × Int)) (p : Int) (dLower : String) : Bool :=
  (parentSuffixes dLower).any fun par =>
    match lookupA par m with
    | some sp => decide (p ≤ sp)
    | none => false

/-- Pass 2 of `deduplicate_rules` (`final_rules`): drop `DOMAIN` rules
covered by an accepted suffix; rules that fail to re-parse are skipped. -/
def pass2 (st : List (String × Int × String)) : List (String × Int × String) :=
  let m := suffixMap st
  st.foldl
    (fun acc e =>
      match parse_rule e.2.2 with
      | none => acc
      | some (t, v) =>
        if t = "DOMAIN" ∧ coveredBySuffix m e.2.1 (lowerS v) = true then acc
        else updateA e.1 (e.2.1, e.2.2) acc)
    []

/-- `generate_rules.deduplicate_rules`: the two deduplication passes
followed by `sorted(...)` on the surviving rule strings. -/
def deduplicate_rules (rules : List String) : List String :=
  List.insertionSort strLE ((pass2 (pass1 rules)).map fun e => e.2.2)

/-- The pass-1 well-formedness invariant of an entry: its rule string
re-parses, its key is the rule's normalized value, and its priority is the
rule's priority. -/
def entryWF (e : String × Int × String) : Prop :=
  ∃ t v, parse_rule e.2.2 = some (t, v) ∧ e.1 = normKey t v ∧ e.2.1 = rulePriority t

/-- The boolean pass-2 keep-condition for an entry (with respect to a given
suffix dictionary): the rule re-parses and is not a `DOMAIN` rule covered by
an accepted suffix. -/
def keepB (m : List (String × Int)) (e : String × Int × String) : Bool :=
  match parse_rule e.2.2 with
  | none => false
  | some (t, v) => decide (¬(t = "DOMAIN" ∧ coveredBySuffix m e.2.1 (lowerS v) = true))

/-- The pass-1 entry a rule line contributes when its key is fresh. -/
def entryOf? (r : String) : Option (String × Int × String) :=
  (parse_rule r).map fun tv => (normKey tv.1 tv.2, rulePriority tv.1, r)

/-- The effect of one pass-1 iteration on a single key's slot. -/
def pickGroupStep (cur : Option (Int × String)) (r : String) : Option (Int × String) :=
  match parse_rule r with
  | none => cur
  | some (t, v) =>
    if rulePriority t > optPrio cur then
      some (rulePriority t, r)
    else if rulePriority t = optPrio cur ∧ t = "DOMAIN-SUFFIX" ∧ "DOMAIN," ++ v = r then
      some (rulePriority t, "DOMAIN-SUFFIX," ++ v)
    else cur

/-- The normalized key of a rule line, when it parses. -/
def keyOf (r : String) : Option String :=
  (parse_rule r).map fun tv => normKey tv.1 tv.2

/-- The priority of a rule line (`-1` when it does not parse, matching the
sentinel used for absent dictionary keys). -/
def prioOf (r : String) : Int :=
  match parse_rule r with
  | some (t, _) => rulePriority t
  | none => -1

/-- All rules of the input sharing a given normalized value. -/
def groupFor (rs : List String) (k : String) : List String :=
  rs.filter fun r => decide (keyOf r = some k)

/-- The highest priority occurring in a group of rules. -/
def groupMax (g : List String) : Int :=
  g.foldl (fun m r => max m (prioOf r)) (-1)

end GenerateRules

namespace ProcessRules

/-- `process_rules.IP_TYPES`. -/
def IP_TYPES : List String := ["IP-ASN", "IP-CIDR", "IP-CIDR6"]

/-- The loop of `process_rules.process_rules`; `inSec` is `in_rule_section`.
A `#` comment inside the rule section ends processing (`break`). -/
def process_rules_go (inSec : Bool) : List String → List String
  | [] => []
  | l :: ls =>
    let line := pyStrip l
    if line = "" then process_rules_go inSec ls
    else if startsWithL line.data ['#'] then
      if inSec then [] else process_rules_go inSec ls
    else if line = "[Rule]" then process_rules_go true ls
    else if inSec then
      match splitAllL ',' line.data with
      | p0 :: p1 :: _ =>
        let rule_type : String := ⟨stripL p0⟩
        let domain : String := ⟨stripL p1⟩
        (if rule_type ∈ IP_TYPES then rule_type ++ "," ++ domain ++ ",no-resolve"
         else rule_type ++ "," ++ domain) :: process_rules_go inSec ls
      | _ => process_rules_go inSec ls
    else process_rules_go inSec ls

/-- `process_rules.process_rules`: strip comments and policies, rebuild each
rule from its first two fields, and add `no-resolve` to IP-kind rules. -/
def process_rules (lines : List String) : List String :=
  process_rules_go false lines

/-- Python `set(...)` modelled as first-occurrence deduplication (the result
below is re-sorted, so the set's iteration order is immaterial). -/
def pySetList (l : List String) : List String :=
  l.foldl (fun acc x => if x ∈ acc then acc else acc ++ [x]) []

/-- `process_rules.apply_customizations`: set-union with the append list,
set-difference with the exclude list, then `sorted(...)`. -/
def apply_customizations (rules append_list exclude_list : List String) : List String :=
  List.insertionSort strLE
    ((pySetList (rules ++ append_list)).filter fun r => decide (r ∉ exclude_list))

end ProcessRules

namespace UpdateRules

/-- The no-resolve annotation step of `update_rules.generate_rule_files`
(line 47): `rule + ',no-resolve' if 'IP-CIDR' in rule else rule`. -/
def addNoResolve (final_rules : List String) : List String :=
  final_rules.map fun r =>
    if containsSubL "IP-CIDR".data r.data then r ++ ",no-resolve" else r

end UpdateRules

/-- Number of comma-separated fields of a rule line equal to `no-resolve`,
i.e. how many no-resolve modifiers the line carries. -/
def noResolveCount (r : String) : Nat :=
  ((splitAllL ',' r.data).filter fun f => decide (f = "no-resolve".data)).length

/-- Modelled from the spec (§8, pattern-coverage example): the regex
`^ads\.` of the example matches a candidate string verbatim iff the string
starts with the literal `ads.`. -/
def caretAdsDotMatches (d : String) : Bool :=
  startsWithL d.data "ads.".data

/-- Modelled from the spec (§4.4 step 5): the claimed comparison key —
primarily the normalized value, ties broken by the kind name. -/
def specSortKey (r : String) : String × String :=
  match GenerateRules.parse_rule r with
  | some (t, v) => (GenerateRules.normKey t v, t)
  | none => (r, "")

/-- Modelled from the spec (§4.4 step 5): the claimed order — primarily
lexicographic on normalized value, ties broken by kind name (compared on
the underlying character lists, i.e. by code point as Python would). -/
def specValueKindLE (a b : String) : Bool :=
  decide ((specSortKey a).1.data < (specSortKey b).1.data ∨
    ((specSortKey a).1 = (specSortKey b).1 ∧ (specSortKey a).2.data ≤ (specSortKey b).2.data))

/-! ### The sort order -/

theorem strLE_iff_le {a b : String} : strLE a b ↔ a ≤ b :=
  Iff.symm String.le_iff_toList_le

instance : IsTotal String strLE :=
  ⟨fun a b => (le_total a b).imp strLE_iff_le.mpr strLE_iff_le.mpr⟩

instance : IsTrans String strLE :=
  ⟨fun _ _ _ h₁ h₂ => strLE_iff_le.mpr (le_trans (strLE_iff_le.mp h₁) (strLE_iff_le.mp h₂))⟩

instance : IsAntisymm String strLE :=
  ⟨fun _ _ h₁ h₂ => le_antisymm (strLE_iff_le.mp h₁) (strLE_iff_le.mp h₂)⟩

/-! ### Properties of the string primitives -/

theorem dropWhile_eq_self_of_head {p : Char → Bool} {l : List Char}
    (h : ∀ c, l.head? = some c → p c = false) : l.dropWhile p = l := by
  cases l with
  | nil => rfl
  | cons c cs => exact List.dropWhile_cons_of_neg (by simp [h c rfl])

theorem head_dropWhile_false {p : Char → Bool} {l : List Char} {c : Char}
    (h : (l.dropWhile p).head? = some c) : p c = false := by
  have := List.head?_dropWhile_not p l
  rw [h] at this
  exact this

theorem dropWhile_idem {p : Char → Bool} (l : List Char) :
    (l.dropWhile p).dropWhile p = l.dropWhile p :=
  dropWhile_eq_self_of_head fun _ hc => head_dropWhile_false hc

theorem head?_of_isPrefix {u v : List Char} {c : Char} (h : u <+: v)
    (hc : u.head? = some c) : v.head? = some c := by
  obtain ⟨t, rfl⟩ := h
  cases u with
  | nil => simp at hc
  | cons a u' => simpa using hc

theorem stripL_reverse (l : List Char) :
    (stripL l).reverse = (l.dropWhile isPySpace).reverse.dropWhile isPySpace := by
  simp [stripL]

theorem stripL_isPrefix (l : List Char) : stripL l <+: l.dropWhile isPySpace := by
  have h : (stripL l).reverse <:+ (l.dropWhile isPySpace).reverse := by
    rw [stripL_reverse]
    exact List.dropWhile_suffix _
  have := List.reverse_prefix.mpr h
  simpa using this

theorem stripL_head_false {l : List Char} {c : Char}
    (h : (stripL l).head? = some c) : isPySpace c = false := by
  have hv : (l.dropWhile isPySpace).head? = some c :=
    head?_of_isPrefix (stripL_isPrefix l) h
  exact head_dropWhile_false hv

theorem stripL_revhead_false {l : List Char} {c : Char}
    (h : (stripL l).reverse.head? = some c) : isPySpace c = false := by
  rw [stripL_reverse] at h
  exact head_dropWhile_false h

theorem stripL_eq_self {l : List Char}
    (h₁ : ∀ c, l.head? = some c → isPySpace c = false)
    (h₂ : ∀ c, l.reverse.head? = some c → isPySpace c = false) : stripL l = l := by
  unfold stripL
  rw [dropWhile_eq_self_of_head h₁, dropWhile_eq_self_of_head h₂, List.reverse_reverse]

theorem stripL_idem (l : List Char) : stripL (stripL l) = stripL l :=
  stripL_eq_self (fun _ h => stripL_head_false h) (fun _ h => stripL_revhead_false h)

theorem charToNat_ofNat {n : Nat} (h : n.isValidChar) : (Char.ofNat n).toNat = n := by
  rw [Char.ofNat, dif_pos h]
  rfl

theorem toLower_toLower (c : Char) : c.toLower.toLower = c.toLower := by
  by_cases h : c.toNat ≥ 65 ∧ c.toNat ≤ 90
  · have hv : (c.toNat + 32).isValidChar := Or.inl (by omega)
    have ht : (Char.ofNat (c.toNat + 32)).toNat = c.toNat + 32 := charToNat_ofNat hv
    simp only [Char.toLower, if_pos h]
    rw [if_neg (by rw [ht]; omega)]
  · simp only [Char.toLower, if_neg h]

theorem lowerS_idem (s : String) : lowerS (lowerS s) = lowerS s := by
  unfold lowerS
  apply congrArg String.mk
  rw [List.map_map]
  exact List.map_congr_left fun c _ => toLower_toLower c

/-! ### `splitOnce`, `splitAllL`, `joinSep` -/

theorem splitOnce_not_mem {sep : Char} {l : List Char} (h : sep ∉ l) :
    splitOnce sep l = (l, none) := by
  induction l with
  | nil => rfl
  | cons c cs ih =>
    have hcs : sep ∉ cs := fun m => h (List.mem_cons_of_mem _ m)
    have hc : ¬c = sep := fun e => h (e ▸ List.mem_cons_self _ _)
    simp [splitOnce, hc, ih hcs]

theorem splitOnce_append {sep : Char} {pre rest : List Char} (h : sep ∉ pre) :
    splitOnce sep (pre ++ sep :: rest) = (pre, some rest) := by
  induction pre with
  | nil => simp [splitOnce]
  | cons c cs ih =>
    have hcs : sep ∉ cs := fun m => h (List.mem_cons_of_mem _ m)
    have hc : ¬c = sep := fun e => h (e ▸ List.mem_cons_self _ _)
    simp [splitOnce, hc, ih hcs]

theorem splitAllL_ne_nil {sep : Char} (l : List Char) : splitAllL sep l ≠ [] := by
  cases l with
  | nil => simp [splitAllL]
  | cons c cs =>
    by_cases hc : c = sep
    · simp [splitAllL, hc]
    · simp only [splitAllL, if_neg hc]
      cases h : splitAllL sep cs <;> simp

theorem length_splitAllL_pos {sep : Char} (l : List Char) :
    0 < (splitAllL sep l).length :=
  List.length_pos.mpr (splitAllL_ne_nil l)

theorem joinSep_splitAllL {sep : Char} (l : List Char) :
    joinSep sep (splitAllL sep l) = l := by
  induction l with
  | nil => rfl
  | cons c cs ih =>
    by_cases hc : c = sep
    · subst hc
      simp only [splitAllL, if_pos rfl]
      cases h : splitAllL c cs with
      | nil => exact absurd h (splitAllL_ne_nil cs)
      | cons p ps =>
        rw [h] at ih
        simp [joinSep, ih]
    · simp only [splitAllL, if_neg hc]
      cases h : splitAllL sep cs with
      | nil => exact absurd h (splitAllL_ne_nil cs)
      | cons p ps =>
        rw [h] at ih
        cases ps with
        | nil => simpa [joinSep] using congrArg (c :: ·) ih
        | cons q qs => simpa [joinSep] using congrArg (c :: ·) ih

theorem splitAllL_append (sep : Char) (w s : List Char) :
    splitAllL sep (w ++ sep :: s) = splitAllL sep w ++ splitAllL sep s := by
  induction w with
  | nil => simp [splitAllL]
  | cons c cs ih =>
    by_cases hc : c = sep
    · simp [splitAllL, hc, ih]
    · simp only [List.cons_append, splitAllL, if_neg hc, List.append_eq]
      cases h : splitAllL sep cs with
      | nil => exact absurd h (splitAllL_ne_nil cs)
      | cons p ps => rw [ih, h]; simp

namespace GenerateRules

/-! ### Association lists -/

theorem lookupA_updateA_self {β : Type} (k : String) (v : β) (st : List (String × β)) :
    lookupA k (updateA k v st) = some v := by
  induction st with
  | nil => simp [updateA, lookupA]
  | cons e rest ih =>
    obtain ⟨k', v'⟩ := e
    by_cases h : k' = k
    · simp [updateA, lookupA, h]
    · simp [updateA, lookupA, h, ih]

theorem lookupA_updateA_ne {β : Type} {k k' : String} (v : β) (st : List (String × β))
    (h : k' ≠ k) : lookupA k' (updateA k v st) = lookupA k' st := by
  induction st with
  | nil => simp [updateA, lookupA, Ne.symm h]
  | cons e rest ih =>
    obtain ⟨k₀, v₀⟩ := e
    by_cases h₀ : k₀ = k
    · subst h₀
      simp [updateA, lookupA, Ne.symm h]
    · simp only [updateA, if_neg h₀, lookupA]
      by_cases h₁ : k₀ = k'
      · simp [h₁]
      · simp [h₁, ih]

theorem mem_updateA {β : Type} {k : String} {v : β} {st : List (String × β)} {e : String × β}
    (h : e ∈ updateA k v st) : e = (k, v) ∨ e ∈ st := by
  induction st with
  | nil => simpa [updateA] using h
  | cons e₀ rest ih =>
    obtain ⟨k₀, v₀⟩ := e₀
    by_cases h₀ : k₀ = k
    · simp only [updateA, if_pos h₀] at h
      rcases List.mem_cons.mp h with h' | h'
      · exact Or.inl h'
      · exact Or.inr (List.mem_cons_of_mem _ h')
    · simp only [updateA, if_neg h₀] at h
      rcases List.mem_cons.mp h with h' | h'
      · exact Or.inr (by rw [h']; exact List.mem_cons_self _ _)
      · rcases ih h' with h'' | h''
        · exact Or.inl h''
        · exact Or.inr (List.mem_cons_of_mem _ h'')

theorem updateA_of_not_mem {β : Type} {k : String} (v : β) {st : List (String × β)}
    (h : k ∉ st.map Prod.fst) : updateA k v st = st ++ [(k, v)] := by
  induction st with
  | nil => rfl
  | cons e rest ih =>
    obtain ⟨k₀, v₀⟩ := e
    simp only [List.map_cons, List.mem_cons] at h
    push_neg at h
    simp [updateA, Ne.symm h.1, ih h.2]

theorem keys_updateA_of_mem {β : Type} {k : String} (v : β) {st : List (String × β)}
    (h : k ∈ st.map Prod.fst) : (updateA k v st).map Prod.fst = st.map Prod.fst := by
  induction st with
  | nil => simp at h
  | cons e rest ih =>
    obtain ⟨k₀, v₀⟩ := e
    by_cases h₀ : k₀ = k
    · simp [updateA, h₀]
    · simp only [List.map_cons, List.mem_cons] at h
      rcases h with h | h
      · exact absurd h.symm h₀
      · simp [updateA, if_neg h₀, ih h]

theorem nodup_keys_updateA {β : Type} {k : String} (v : β) {st : List (String × β)}
    (h : (st.map Prod.fst).Nodup) : ((updateA k v st).map Prod.fst).Nodup := by
  by_cases hk : k ∈ st.map Prod.fst
  · rw [keys_updateA_of_mem v hk]; exact h
  · rw [updateA_of_not_mem v hk, List.map_append, List.nodup_append]
    refine ⟨h, List.nodup_singleton _, ?_⟩
    intro a ha hb
    simp only [List.map_cons, List.map_nil, List.mem_singleton] at hb
    exact hk (hb ▸ ha)

theorem lookupA_eq_none_iff {β : Type} {k : String} {st : List (String × β)} :
    lookupA k st = none ↔ k ∉ st.map Prod.fst := by
  induction st with
  | nil => simp [lookupA]
  | cons e rest ih =>
    obtain ⟨k₀, v₀⟩ := e
    by_cases h₀ : k₀ = k
    · simp [lookupA, h₀]
    · simp [lookupA, h₀, ih, Ne.symm h₀]

theorem mem_of_lookupA_eq_some {β : Type} {k : String} {v : β} {st : List (String × β)}
    (h : lookupA k st = some v) : (k, v) ∈ st := by
  induction st with
  | nil => simp [lookupA] at h
  | cons e rest ih =>
    obtain ⟨k₀, v₀⟩ := e
    by_cases h₀ : k₀ = k
    · subst h₀
      have hv : v₀ = v := by simpa [lookupA] using h
      rw [← hv]
      exact List.mem_cons_self _ _
    · simp only [lookupA, if_neg h₀] at h
      exact List.mem_cons_of_mem _ (ih h)

theorem lookupA_eq_some_of_mem {β : Type} {k : String} {v : β} {st : List (String × β)}
    (hnd : (st.map Prod.fst).Nodup) (h : (k, v) ∈ st) : lookupA k st = some v := by
  induction st with
  | nil => simp at h
  | cons e rest ih =>
    obtain ⟨k₀, v₀⟩ := e
    simp only [List.map_cons, List.nodup_cons] at hnd
    rcases List.mem_cons.mp h with h' | h'
    · have h1 : k = k₀ := congrArg Prod.fst h'
      have h2 : v = v₀ := congrArg Prod.snd h'
      subst h1; subst h2
      simp [lookupA]
    · have hk : k₀ ≠ k := by
        rintro rfl
        exact hnd.1 (List.mem_map.mpr ⟨(k₀, v), h', rfl⟩)
      simp [lookupA, hk, ih hnd.2 h']

/-! ### Structure of `parse_rule` results -/

theorem parse_rule_value_stripped {r t v : String} (h : parse_rule r = some (t, v)) :
    stripL v.data = v.data ∧ v ≠ "" := by
  simp only [parse_rule] at h
  split at h
  · simp at h
  split at h
  · simp at h
  split at h
  case _ p0 p1 heq =>
    split at h
    case isTrue hc =>
      injection h with hpair
      rw [Prod.mk.injEq] at hpair
      have hv := hpair.2
      refine ⟨?_, ?_⟩
      · rw [← hv]
        exact stripL_idem p1
      · rw [← hv]
        exact hc.2
    case isFalse hc => simp at h
  case _ p0 heq =>
    split at h
    · simp at h
    case isFalse hne =>
      have hgoal : stripL (String.mk (stripL p0)).data = (String.mk (stripL p0)).data ∧
          (String.mk (stripL p0)) ≠ "" := by
        refine ⟨stripL_idem p0, ?_⟩
        intro hcontra
        exact hne (String.ext_iff.mp hcontra)
      split at h
      · injection h with hpair
        rw [Prod.mk.injEq] at hpair
        rw [← hpair.2]
        exact hgoal
      split at h
      · injection h with hpair
        rw [Prod.mk.injEq] at hpair
        rw [← hpair.2]
        exact hgoal
      split at h
      · injection h with hpair
        rw [Prod.mk.injEq] at hpair
        rw [← hpair.2]
        exact hgoal
      · simp at h

/-- Evaluation of `parse_rule` on a well-formed `KIND,value` concatenation. -/
theorem parse_rule_concat (K v : String)
    (hKs : stripL K.data = K.data) (hKne : K ≠ "")
    (hcomma : ',' ∉ K.data) (hupper : upperS K = K)
    (hK1 : K.data.head? ≠ some '#' ∧ K.data.head? ≠ some ';' ∧
      K.data.head? ≠ some '!' ∧ K.data.head? ≠ some '/')
    (hvs : stripL v.data = v.data) (hvne : v ≠ "") :
    parse_rule (K ++ "," ++ v) = some (K, v) := by
  obtain ⟨c, ks, hK⟩ : ∃ c ks, K.data = c :: ks := by
    cases hKd : K.data with
    | nil => exact absurd (String.ext hKd) hKne
    | cons c ks => exact ⟨c, ks, rfl⟩
  have hdata : (K ++ "," ++ v).data = K.data ++ ',' :: v.data := by simp
  have hchead : ∀ d, K.data.head? = some d → isPySpace d = false := by
    intro d hd
    rw [← hKs] at hd
    exact stripL_head_false hd
  have hstrip : stripL (K.data ++ ',' :: v.data) = K.data ++ ',' :: v.data := by
    apply stripL_eq_self
    · intro d hd
      rw [hK] at hd
      simp only [List.cons_append, List.head?_cons, Option.some.injEq] at hd
      exact hchead d (by rw [hK]; simpa using congrArg some hd)
    · intro d hd
      rw [List.reverse_append, List.reverse_cons, List.head?_append, List.head?_append] at hd
      cases hvr : v.data.reverse.head? with
      | some d' =>
        rw [hvr, Option.or_some, Option.or_some, Option.some.injEq] at hd
        have hrev : (stripL v.data).reverse.head? = some d' := by rw [hvs]; exact hvr
        rw [← hd]
        exact stripL_revhead_false hrev
      | none =>
        rw [hvr, Option.none_or] at hd
        simp only [List.head?_cons, Option.or_some, Option.some.injEq] at hd
        rw [← hd]
        rfl
  unfold parse_rule
  rw [hdata, hstrip]
  rw [if_neg (by rw [hK]; simp)]
  have hmark : (startsWithL (K.data ++ ',' :: v.data) ['#'] ||
      startsWithL (K.data ++ ',' :: v.data) [';'] ||
      startsWithL (K.data ++ ',' :: v.data) ['/', '/'] ||
      startsWithL (K.data ++ ',' :: v.data) ['!']) = false := by
    rw [hK]
    have h1 : c ≠ '#' := fun e => hK1.1 (by rw [hK, e]; rfl)
    have h2 : c ≠ ';' := fun e => hK1.2.1 (by rw [hK, e]; rfl)
    have h3 : c ≠ '!' := fun e => hK1.2.2.1 (by rw [hK, e]; rfl)
    have h4 : c ≠ '/' := fun e => hK1.2.2.2 (by rw [hK, e]; rfl)
    simp [startsWithL, h1, h2, h3, h4]
  rw [if_neg (by rw [hmark]; simp)]
  rw [splitOnce_append hcomma]
  have hKmk : String.mk (stripL K.data) = K := by rw [hKs]
  have hvmk : String.mk (stripL v.data) = v := by rw [hvs]
  simp only [hKmk, hvmk, hupper]
  rw [if_pos ⟨hKne, hvne⟩]

/-- The `elif` branch of pass 1 is dead code: if a line parses as
`DOMAIN-SUFFIX`, it cannot literally be the string `"DOMAIN," + value`. -/
theorem elif_dead {r t v : String} (h : parse_rule r = some (t, v))
    (ht : t = "DOMAIN-SUFFIX") : "DOMAIN," ++ v ≠ r := by
  intro he
  obtain ⟨hvs, hvne⟩ := parse_rule_value_stripped h
  have hc : parse_rule ("DOMAIN" ++ "," ++ v) = some ("DOMAIN", v) := by
    refine parse_rule_concat "DOMAIN" v (by decide) (by decide) (by decide) (by decide)
      ⟨by decide, by decide, by decide, by decide⟩ hvs hvne
  have he' : "DOMAIN" ++ "," ++ v = r := by
    have : ("DOMAIN" : String) ++ "," = "DOMAIN," := by decide
    rw [this]
    exact he
  rw [← he', hc] at h
  injection h with hpair
  rw [Prod.mk.injEq] at hpair
  have hts := hpair.1
  rw [ht] at hts
  exact absurd hts (by decide)

/-! ### Pass-1 invariants -/

theorem rulePriority_nonneg (t : String) : 0 ≤ rulePriority t := by
  unfold rulePriority
  repeat' split
  all_goals norm_num

theorem entryWF_insertRule {st : List (String × Int × String)} {r : String}
    (h : ∀ e ∈ st, entryWF e) : ∀ e ∈ insertRule st r, entryWF e := by
  intro e he
  cases hp : parse_rule r with
  | none =>
    simp only [insertRule, hp] at he
    exact h e he
  | some tv =>
    obtain ⟨t, v⟩ := tv
    simp only [insertRule, hp] at he
    split at he
    · rcases mem_updateA he with he' | he'
      · rw [he']
        exact ⟨t, v, hp, rfl, rfl⟩
      · exact h e he'
    · split at he
      case isTrue hcond => exact absurd hcond.2.2 (elif_dead hp hcond.2.1)
      case isFalse => exact h e he

theorem nodup_keys_insertRule {st : List (String × Int × String)} (r : String)
    (h : (st.map Prod.fst).Nodup) : ((insertRule st r).map Prod.fst).Nodup := by
  cases hp : parse_rule r with
  | none => simpa only [insertRule, hp] using h
  | some tv =>
    obtain ⟨t, v⟩ := tv
    simp only [insertRule, hp]
    split
    · exact nodup_keys_updateA _ h
    · split
      · exact nodup_keys_updateA _ h
      · exact h

theorem pass1_go_entryWF : ∀ (l : List String) (acc : List (String × Int × String)),
    (∀ e ∈ acc, entryWF e) → ∀ e ∈ l.foldl insertRule acc, entryWF e := by
  intro l
  induction l with
  | nil => intro acc h; exact h
  | cons r l' ih => intro acc h; exact ih _ (entryWF_insertRule h)

theorem pass1_entryWF (rs : List String) : ∀ e ∈ pass1 rs, entryWF e :=
  pass1_go_entryWF rs [] (by simp)

theorem pass1_go_nodup_keys : ∀ (l : List String) (acc : List (String × Int × String)),
    (acc.map Prod.fst).Nodup → ((l.foldl insertRule acc).map Prod.fst).Nodup := by
  intro l
  induction l with
  | nil => intro acc h; exact h
  | cons r l' ih => intro acc h; exact ih _ (nodup_keys_insertRule r h)

theorem pass1_nodup_keys (rs : List String) : ((pass1 rs).map Prod.fst).Nodup :=
  pass1_go_nodup_keys rs [] (by simp)

theorem mem_unique_of_nodup_keys {st : List (String × Int × String)}
    (hnd : (st.map Prod.fst).Nodup) {e₁ e₂ : String × Int × String}
    (h₁ : e₁ ∈ st) (h₂ : e₂ ∈ st) (hk : e₁.1 = e₂.1) : e₁ = e₂ := by
  have l₁ : lookupA e₁.1 st = some e₁.2 := lookupA_eq_some_of_mem hnd (by simpa using h₁)
  have l₂ : lookupA e₂.1 st = some e₂.2 := lookupA_eq_some_of_mem hnd (by simpa using h₂)
  rw [hk, l₂] at l₁
  have h2 : e₁.2 = e₂.2 := (Option.some.inj l₁).symm
  exact Prod.ext hk h2

/-! ### The per-key effect of pass 1 -/

theorem lookupA_insertRule (st : List (String × Int × String)) (r : String) (k : String) :
    lookupA k (insertRule st r) =
      if keyOf r = some k then pickGroupStep (lookupA k st) r else lookupA k st := by
  cases hp : parse_rule r with
  | none =>
    simp only [insertRule, keyOf, pickGroupStep, hp, Option.map_none']
    simp
  | some tv =>
    obtain ⟨t, v⟩ := tv
    simp only [insertRule, keyOf, pickGroupStep, curPrio, hp, Option.map_some']
    by_cases hk : normKey t v = k
    · subst hk
      rw [if_pos rfl]
      by_cases h1 : rulePriority t > optPrio (lookupA (normKey t v) st)
      · rw [if_pos h1, if_pos h1, lookupA_updateA_self]
      · rw [if_neg h1, if_neg h1]
        by_cases h2 : rulePriority t = optPrio (lookupA (normKey t v) st) ∧
            t = "DOMAIN-SUFFIX" ∧ "DOMAIN," ++ v = r
        · rw [if_pos h2, if_pos h2, lookupA_updateA_self]
        · rw [if_neg h2, if_neg h2]
    · have hne : k ≠ normKey t v := fun e => hk e.symm
      rw [if_neg (show ¬(some (normKey t v) = some k) by simpa using hk)]
      split
      · rw [lookupA_updateA_ne _ _ hne]
      · split
        · rw [lookupA_updateA_ne _ _ hne]
        · rfl

theorem lookupA_foldl_insertRule : ∀ (l : List String) (st : List (String × Int × String))
    (k : String), lookupA k (l.foldl insertRule st) =
      (l.filter fun r => decide (keyOf r = some k)).foldl pickGroupStep (lookupA k st) := by
  intro l
  induction l with
  | nil => intro st k; rfl
  | cons r l' ih =>
    intro st k
    rw [List.foldl_cons, ih, lookupA_insertRule]
    by_cases h : keyOf r = some k
    · rw [if_pos h, List.filter_cons_of_pos (by simpa using h), List.foldl_cons]
    · rw [if_neg h, List.filter_cons_of_neg (by simpa using h)]

theorem lookupA_pass1 (rs : List String) (k : String) :
    lookupA k (pass1 rs) = (groupFor rs k).foldl pickGroupStep none := by
  unfold pass1 groupFor
  rw [lookupA_foldl_insertRule]
  rfl

/-! ### The group maximum and the pass-1 slot characterization -/

theorem neg_one_le_prioOf (r : String) : -1 ≤ prioOf r := by
  unfold prioOf
  split
  · exact le_trans (by norm_num) (rulePriority_nonneg _)
  · exact le_refl _

theorem le_foldl_max : ∀ (g : List String) (i : Int),
    i ≤ g.foldl (fun m r => max m (prioOf r)) i := by
  intro g
  induction g with
  | nil => intro i; exact le_refl i
  | cons r g' ih =>
    intro i
    calc i ≤ max i (prioOf r) := le_max_left _ _
    _ ≤ _ := ih _

theorem le_foldl_max_of_mem : ∀ {g : List String} {x : String} (i : Int), x ∈ g →
    prioOf x ≤ g.foldl (fun m r => max m (prioOf r)) i := by
  intro g
  induction g with
  | nil => intro x i h; simp at h
  | cons r g' ih =>
    intro x i h
    rcases List.mem_cons.mp h with rfl | h'
    · exact le_trans (le_max_right i (prioOf x)) (le_foldl_max g' _)
    · exact ih _ h'

theorem le_groupMax_of_mem {g : List String} {x : String} (h : x ∈ g) :
    prioOf x ≤ groupMax g := le_foldl_max_of_mem _ h

theorem groupMax_append_singleton (g : List String) (r : String) :
    groupMax (g ++ [r]) = max (groupMax g) (prioOf r) := by
  unfold groupMax
  rw [List.foldl_append]
  rfl

theorem groupMax_attained : ∀ {g : List String}, g ≠ [] →
    ∃ x ∈ g, prioOf x = groupMax g := by
  intro g
  induction g using List.reverseRecOn with
  | nil => intro h; exact absurd rfl h
  | append_singleton g r ih =>
    intro _
    rw [groupMax_append_singleton]
    by_cases hle : groupMax g ≤ prioOf r
    · exact ⟨r, by simp, (max_eq_right hle).symm⟩
    · push_neg at hle
      have hg : g ≠ [] := by
        rintro rfl
        have h1 : (-1 : Int) ≤ prioOf r := neg_one_le_prioOf r
        have h2 : prioOf r < groupMax [] := hle
        have h3 : groupMax ([] : List String) = -1 := rfl
        rw [h3] at h2
        omega
      obtain ⟨x, hx, hpx⟩ := ih hg
      exact ⟨x, List.mem_append_left _ hx, by rw [hpx, max_eq_left (le_of_lt hle)]⟩

theorem pickGroup_spec : ∀ (g : List String), (∀ r ∈ g, (parse_rule r).isSome) →
    g.foldl pickGroupStep none =
      (g.find? fun x => decide (prioOf x = groupMax g)).map fun x => (groupMax g, x) := by
  intro g
  induction g using List.reverseRecOn with
  | nil => intro _; rfl
  | append_singleton g r ih =>
    intro hall
    have hg : ∀ x ∈ g, (parse_rule x).isSome := fun x hx => hall x (List.mem_append_left _ hx)
    have hr : (parse_rule r).isSome := hall r (List.mem_append_right _ (by simp))
    obtain ⟨tv, hp⟩ := Option.isSome_iff_exists.mp hr
    obtain ⟨t, v⟩ := tv
    have hpr : prioOf r = rulePriority t := by unfold prioOf; rw [hp]
    rw [List.foldl_append, List.foldl_cons, List.foldl_nil, ih hg]
    simp only [groupMax_append_singleton]
    cases hf : g.find? (fun x => decide (prioOf x = groupMax g)) with
    | none =>
      have hgnil : g = [] := by
        by_contra hne
        obtain ⟨x, hx, hpx⟩ := groupMax_attained hne
        have hfx := List.find?_eq_none.mp hf x hx
        simp [hpx] at hfx
      subst hgnil
      have hgm : groupMax ([] : List String) = -1 := rfl
      simp only [hgm, Option.map_none']
      have hpos : rulePriority t > optPrio none := by
        have := rulePriority_nonneg t
        show rulePriority t > -1
        omega
      simp only [pickGroupStep, hp, if_pos hpos]
      have hmax : max (-1 : Int) (prioOf r) = prioOf r := max_eq_right (neg_one_le_prioOf r)
      simp only [hmax, List.nil_append, List.find?_cons, decide_eq_true_eq]
      simp [hpr]
    | some r0 =>
      have hpr0 : prioOf r0 = groupMax g := by
        have := List.find?_some hf
        simpa using this
      simp only [Option.map_some']
      by_cases hgt : rulePriority t > groupMax g
      · simp only [pickGroupStep, hp]
        rw [if_pos (show rulePriority t > optPrio (some (groupMax g, r0)) from hgt)]
        have hmax : max (groupMax g) (prioOf r) = prioOf r :=
          max_eq_right (le_of_lt (by rw [hpr]; exact hgt))
        simp only [hmax]
        have hnone : g.find? (fun x => decide (prioOf x = prioOf r)) = none := by
          apply List.find?_eq_none.mpr
          intro x hx
          have hle := le_groupMax_of_mem hx
          have hne : prioOf x ≠ prioOf r := by
            rw [hpr]
            intro e
            rw [e] at hle
            exact absurd hgt (not_lt.mpr hle)
          simpa using hne
        rw [List.find?_append, hnone, Option.none_or]
        simp [hpr]
      · push_neg at hgt
        simp only [pickGroupStep, hp]
        rw [if_neg (show ¬rulePriority t > optPrio (some (groupMax g, r0)) from not_lt.mpr hgt)]
        rw [if_neg (show ¬(rulePriority t = optPrio (some (groupMax g, r0)) ∧
            t = "DOMAIN-SUFFIX" ∧ "DOMAIN," ++ v = r) from
          fun hcond => elif_dead hp hcond.2.1 hcond.2.2)]
        have hmax : max (groupMax g) (prioOf r) = groupMax g :=
          max_eq_left (by rw [hpr]; exact hgt)
        simp only [hmax]
        rw [List.find?_append, hf]
        simp

/-! ### `parentSuffixes` -/

theorem mem_parentSuffixes (w s : String) : s ∈ parentSuffixes (w ++ "." ++ s) := by
  unfold parentSuffixes
  have hd : (w ++ "." ++ s).data = w.data ++ '.' :: s.data := by
    simp
  rw [hd, splitAllL_append]
  have hAlen : 0 < (splitAllL '.' w.data).length := length_splitAllL_pos _
  have hBlen : 0 < (splitAllL '.' s.data).length := length_splitAllL_pos _
  refine List.mem_map.mpr ⟨(splitAllL '.' w.data).length - 1, ?_, ?_⟩
  · rw [List.mem_range, List.length_append]
    omega
  · rw [Nat.sub_add_cancel hAlen, List.drop_left]
    rw [joinSep_splitAllL]

/-! ### The suffix dictionary -/

theorem normKey_domain_suffix (v : String) : normKey "DOMAIN-SUFFIX" v = lowerS v := by
  unfold normKey
  rw [if_pos (by decide : containsSubL "DOMAIN".data ("DOMAIN-SUFFIX" : String).data = true)]

theorem normKey_domain (v : String) : normKey "DOMAIN" v = lowerS v := by
  unfold normKey
  rw [if_pos (by decide : containsSubL "DOMAIN".data ("DOMAIN" : String).data = true)]

theorem entry_suffix_key_fix {e : String × Int × String} (hWF : entryWF e) {v : String}
    (hp : parse_rule e.2.2 = some ("DOMAIN-SUFFIX", v)) : lowerS e.1 = e.1 := by
  obtain ⟨t', v', hp', hk, _⟩ := hWF
  rw [hp] at hp'
  injection hp' with hpair
  have ht : "DOMAIN-SUFFIX" = t' := congrArg Prod.fst hpair
  have hv : v = v' := congrArg Prod.snd hpair
  rw [hk, ← ht, ← hv, normKey_domain_suffix]
  unfold lowerS
  apply congrArg String.mk
  show ((lowerS v).data.map Char.toLower) = (lowerS v).data
  have := lowerS_idem v
  exact congrArg String.data this

theorem entry_suffix_prio {e : String × Int × String} (hWF : entryWF e) {v : String}
    (hp : parse_rule e.2.2 = some ("DOMAIN-SUFFIX", v)) : e.2.1 = 2 := by
  obtain ⟨t', v', hp', _, hprio⟩ := hWF
  rw [hp] at hp'
  injection hp' with hpair
  have ht : "DOMAIN-SUFFIX" = t' := congrArg Prod.fst hpair
  rw [hprio, ← ht]
  decide

theorem entry_suffix_key {e : String × Int × String} (hWF : entryWF e) {v : String}
    (hp : parse_rule e.2.2 = some ("DOMAIN-SUFFIX", v)) : e.1 = lowerS v := by
  obtain ⟨t', v', hp', hk, _⟩ := hWF
  rw [hp] at hp'
  injection hp' with hpair
  have ht : "DOMAIN-SUFFIX" = t' := congrArg Prod.fst hpair
  have hv : v = v' := congrArg Prod.snd hpair
  rw [hk, ← ht, ← hv, normKey_domain_suffix]

theorem suffixCands_keys_sublist : ∀ {st : List (String × Int × String)},
    (∀ e ∈ st, entryWF e) →
    ((suffixCands st).map Prod.fst).Sublist (st.map Prod.fst) := by
  intro st
  induction st with
  | nil => intro _; simp [suffixCands]
  | cons e st' ih =>
    intro hWF
    have hWF' : ∀ x ∈ st', entryWF x := fun x hx => hWF x (List.mem_cons_of_mem _ hx)
    cases hp : parse_rule e.2.2 with
    | none =>
      have hstep : suffixCands (e :: st') = suffixCands st' := by
        simp only [suffixCands, List.filterMap_cons, hp]
      rw [hstep, List.map_cons]
      exact (ih hWF').trans (List.sublist_cons_self _ _)
    | some tv =>
      obtain ⟨t, v⟩ := tv
      by_cases ht : t = "DOMAIN-SUFFIX"
      · subst ht
        have hstep : suffixCands (e :: st') = (lowerS e.1, e.2.1) :: suffixCands st' := by
          simp only [suffixCands, List.filterMap_cons, hp, if_pos]
        rw [hstep, List.map_cons, List.map_cons]
        have hfix : lowerS e.1 = e.1 := entry_suffix_key_fix (hWF e (List.mem_cons_self _ _)) hp
        rw [hfix]
        exact (ih hWF').cons₂ _
      · have hstep : suffixCands (e :: st') = suffixCands st' := by
          simp only [suffixCands, List.filterMap_cons, hp, if_neg ht]
        rw [hstep, List.map_cons]
        exact (ih hWF').trans (List.sublist_cons_self _ _)

theorem suffixCands_keys_nodup {st : List (String × Int × String)}
    (hWF : ∀ e ∈ st, entryWF e) (hnd : (st.map Prod.fst).Nodup) :
    ((suffixCands st).map Prod.fst).Nodup :=
  hnd.sublist (suffixCands_keys_sublist hWF)

theorem foldl_updateA_of_nodup {β : Type} : ∀ (l : List (String × β)) (acc : List (String × β)),
    (acc.map Prod.fst ++ l.map Prod.fst).Nodup →
    l.foldl (fun m kv => updateA kv.1 kv.2 m) acc = acc ++ l := by
  intro l
  induction l with
  | nil => intro acc _; simp
  | cons kv l' ih =>
    intro acc hnd
    have hfresh : kv.1 ∉ acc.map Prod.fst := by
      intro hmem
      rw [List.map_cons, List.nodup_append] at hnd
      exact hnd.2.2 hmem (List.mem_cons_self _ _)
    rw [List.foldl_cons, updateA_of_not_mem _ hfresh]
    have hnd' : ((acc ++ [kv]).map Prod.fst ++ l'.map Prod.fst).Nodup := by
      rw [List.map_append]
      rw [List.append_assoc]
      simpa [List.map_cons] using hnd
    rw [ih _ hnd', List.append_assoc]
    rfl

theorem suffixMap_eq {st : List (String × Int × String)} (hWF : ∀ e ∈ st, entryWF e)
    (hnd : (st.map Prod.fst).Nodup) : suffixMap st = suffixCands st := by
  unfold suffixMap
  have := foldl_updateA_of_nodup (suffixCands st) []
  simpa using this (by simpa using suffixCands_keys_nodup hWF hnd)

theorem mem_suffixCands {st : List (String × Int × String)} (hWF : ∀ e ∈ st, entryWF e)
    {e : String × Int × String} (he : e ∈ st) {v : String}
    (hp : parse_rule e.2.2 = some ("DOMAIN-SUFFIX", v)) : (e.1, e.2.1) ∈ suffixCands st := by
  refine List.mem_filterMap.mpr ⟨e, he, ?_⟩
  rw [hp]
  simp only [if_pos]
  rw [entry_suffix_key_fix (hWF e he) hp]

theorem of_mem_suffixCands {st : List (String × Int × String)} (hWF : ∀ e ∈ st, entryWF e)
    {s : String} {p : Int} (h : (s, p) ∈ suffixCands st) :
    ∃ e ∈ st, ∃ v, parse_rule e.2.2 = some ("DOMAIN-SUFFIX", v) ∧ s = e.1 ∧ p = e.2.1 := by
  obtain ⟨e, he, hf⟩ := List.mem_filterMap.mp h
  cases hp : parse_rule e.2.2 with
  | none => rw [hp] at hf; simp at hf
  | some tv =>
    obtain ⟨t, v⟩ := tv
    simp only [hp] at hf
    by_cases ht : t = "DOMAIN-SUFFIX"
    · subst ht
      rw [if_pos rfl] at hf
      injection hf with hpair
      have hs : lowerS e.1 = s := congrArg Prod.fst hpair
      have hpv : e.2.1 = p := congrArg Prod.snd hpair
      refine ⟨e, he, v, hp, ?_, hpv.symm⟩
      rw [← hs, entry_suffix_key_fix (hWF e he) hp]
    · rw [if_neg ht] at hf
      simp at hf

theorem lookupA_suffixMap_of_entry {st : List (String × Int × String)}
    (hWF : ∀ e ∈ st, entryWF e) (hnd : (st.map Prod.fst).Nodup)
    {e : String × Int × String} (he : e ∈ st) {v : String}
    (hp : parse_rule e.2.2 = some ("DOMAIN-SUFFIX", v)) :
    lookupA e.1 (suffixMap st) = some e.2.1 := by
  rw [suffixMap_eq hWF hnd]
  exact lookupA_eq_some_of_mem (suffixCands_keys_nodup hWF hnd) (mem_suffixCands hWF he hp)

theorem lookupA_suffixMap_some {st : List (String × Int × String)}
    (hWF : ∀ e ∈ st, entryWF e) (hnd : (st.map Prod.fst).Nodup)
    {s : String} {p : Int} (h : lookupA s (suffixMap st) = some p) :
    ∃ e ∈ st, ∃ v, parse_rule e.2.2 = some ("DOMAIN-SUFFIX", v) ∧ s = e.1 ∧ p = e.2.1 := by
  rw [suffixMap_eq hWF hnd] at h
  exact of_mem_suffixCands hWF (mem_of_lookupA_eq_some h)

/-! ### Pass 2 as a filter -/

theorem pass2_go (m : List (String × Int)) : ∀ (l : List (String × Int × String))
    (acc : List (String × Int × String)),
    (acc.map Prod.fst ++ l.map Prod.fst).Nodup →
    (l.foldl (fun acc e =>
      match parse_rule e.2.2 with
      | none => acc
      | some (t, v) =>
        if t = "DOMAIN" ∧ coveredBySuffix m e.2.1 (lowerS v) = true then acc
        else updateA e.1 (e.2.1, e.2.2) acc) acc) = acc ++ l.filter (keepB m) := by
  intro l
  induction l with
  | nil => intro acc _; simp
  | cons e l' ih =>
    intro acc hnd
    have hnd' : (acc.map Prod.fst ++ l'.map Prod.fst).Nodup := by
      refine List.Nodup.sublist ?_ hnd
      exact List.Sublist.append_left (by simp) _
    have hfresh : e.1 ∉ acc.map Prod.fst := by
      intro hmem
      rw [List.map_cons, List.nodup_append] at hnd
      exact hnd.2.2 hmem (List.mem_cons_self _ _)
    rw [List.foldl_cons]
    cases hp : parse_rule e.2.2 with
    | none =>
      have hkeep : keepB m e = false := by simp [keepB, hp]
      simp only [hp]
      rw [List.filter_cons_of_neg (by simp [hkeep]), ih acc hnd']
    | some tv =>
      obtain ⟨t, v⟩ := tv
      by_cases hskip : t = "DOMAIN" ∧ coveredBySuffix m e.2.1 (lowerS v) = true
      · have hkeep : keepB m e = false := by simp [keepB, hp, hskip]
        simp only [hp, if_pos hskip]
        rw [List.filter_cons_of_neg (by simp [hkeep]), ih acc hnd']
      · have hkeep : keepB m e = true := by
          simp only [keepB, hp, decide_eq_true_eq]
          exact hskip
        simp only [hp, if_neg hskip]
        rw [updateA_of_not_mem _ hfresh]
        have hnd'' : ((acc ++ [e]).map Prod.fst ++ l'.map Prod.fst).Nodup := by
          rw [List.map_append, List.append_assoc]
          simpa [List.map_cons] using hnd
        have hstep := ih (acc ++ [(e.1, e.2.1, e.2.2)]) (by simpa using hnd'')
        rw [hstep, List.filter_cons_of_pos (by simp [hkeep]), List.append_assoc]
        rfl

theorem pass2_eq_filter {st : List (String × Int × String)}
    (hnd : (st.map Prod.fst).Nodup) : pass2 st = st.filter (keepB (suffixMap st)) := by
  have := pass2_go (suffixMap st) st [] (by simpa using hnd)
  simpa [pass2] using this

theorem deduplicate_rules_eq (rs : List String) :
    deduplicate_rules rs = List.insertionSort strLE
      (((pass1 rs).filter (keepB (suffixMap (pass1 rs)))).map fun e => e.2.2) := by
  unfold deduplicate_rules
  rw [pass2_eq_filter (pass1_nodup_keys rs)]

theorem mem_deduplicate_iff {rs : List String} {r : String} :
    r ∈ deduplicate_rules rs ↔
      ∃ e ∈ pass1 rs, keepB (suffixMap (pass1 rs)) e = true ∧ e.2.2 = r := by
  rw [deduplicate_rules_eq, List.mem_insertionSort, List.mem_map]
  constructor
  · rintro ⟨e, he, hval⟩
    rw [List.mem_filter] at he
    exact ⟨e, he.1, he.2, hval⟩
  · rintro ⟨e, he, hkeep, hval⟩
    exact ⟨e, List.mem_filter.mpr ⟨he, hkeep⟩, hval⟩

end GenerateRules

namespace GenerateRules

theorem keepB_parse_isSome {m : List (String × Int)} {e : String × Int × String}
    (h : keepB m e = true) : (parse_rule e.2.2).isSome := by
  unfold keepB at h
  cases hp : parse_rule e.2.2 with
  | none => rw [hp] at h; simp at h
  | some tv => simp

theorem entry_domain_key {e : String × Int × String} (hWF : entryWF e) {v : String}
    (hp : parse_rule e.2.2 = some ("DOMAIN", v)) : e.1 = lowerS v := by
  obtain ⟨t', v', hp', hk, _⟩ := hWF
  rw [hp] at hp'
  injection hp' with hpair
  have ht : "DOMAIN" = t' := congrArg Prod.fst hpair
  have hv : v = v' := congrArg Prod.snd hpair
  rw [hk, ← ht, ← hv, normKey_domain]

theorem entry_domain_prio {e : String × Int × String} (hWF : entryWF e) {v : String}
    (hp : parse_rule e.2.2 = some ("DOMAIN", v)) : e.2.1 = 1 := by
  obtain ⟨t', v', hp', _, hprio⟩ := hWF
  rw [hp] at hp'
  injection hp' with hpair
  have ht : "DOMAIN" = t' := congrArg Prod.fst hpair
  rw [hprio, ← ht]
  decide

/-- C1: if the deduplication engine accepts a `DOMAIN-SUFFIX` rule with
(normalized) value `s`, then no `DOMAIN` rule whose normalized (lowercased)
value equals `s` or ends with `"." ++ s` appears in the engine's output:
every such rule is eliminated. -/
theorem C1_suffix_eliminates_covered_domain (rs : List String) (r₁ r₂ v₁ v₂ : String)
    (h₁ : r₁ ∈ deduplicate_rules rs)
    (h₂ : r₂ ∈ deduplicate_rules rs)
    (hp₁ : parse_rule r₁ = some ("DOMAIN-SUFFIX", v₁))
    (hp₂ : parse_rule r₂ = some ("DOMAIN", v₂)) :
    ¬(lowerS v₂ = lowerS v₁ ∨ ∃ w : String, lowerS v₂ = w ++ "." ++ lowerS v₁) := by
  intro hcov
  obtain ⟨e₁, he₁, hk₁, hv₁⟩ := mem_deduplicate_iff.mp h₁
  obtain ⟨e₂, he₂, hk₂, hv₂⟩ := mem_deduplicate_iff.mp h₂
  have hWF := pass1_entryWF rs
  have hnd := pass1_nodup_keys rs
  have hpe₁ : parse_rule e₁.2.2 = some ("DOMAIN-SUFFIX", v₁) := by rw [hv₁]; exact hp₁
  have hpe₂ : parse_rule e₂.2.2 = some ("DOMAIN", v₂) := by rw [hv₂]; exact hp₂
  have hkey₁ : e₁.1 = lowerS v₁ := entry_suffix_key (hWF e₁ he₁) hpe₁
  have hkey₂ : e₂.1 = lowerS v₂ := entry_domain_key (hWF e₂ he₂) hpe₂
  have hprio₂ : e₂.2.1 = 1 := entry_domain_prio (hWF e₂ he₂) hpe₂
  rcases hcov with heq | ⟨w, hsuf⟩
  · have hkk : e₂.1 = e₁.1 := by rw [hkey₂, hkey₁, heq]
    have hee := mem_unique_of_nodup_keys hnd he₂ he₁ hkk
    rw [hee, hpe₁] at hpe₂
    injection hpe₂ with hpair
    have ht : "DOMAIN-SUFFIX" = "DOMAIN" := congrArg Prod.fst hpair
    exact absurd ht (by decide)
  · unfold keepB at hk₂
    simp only [hpe₂, decide_eq_true_eq] at hk₂
    apply hk₂
    refine ⟨trivial, ?_⟩
    unfold coveredBySuffix
    rw [List.any_eq_true]
    refine ⟨lowerS v₁, ?_, ?_⟩
    · rw [hsuf]
      exact mem_parentSuffixes w (lowerS v₁)
    · have hl : lookupA e₁.1 (suffixMap (pass1 rs)) = some e₁.2.1 :=
        lookupA_suffixMap_of_entry hWF hnd he₁ hpe₁
      rw [hkey₁] at hl
      rw [hl]
      have h2 : e₁.2.1 = 2 := entry_suffix_prio (hWF e₁ he₁) hpe₁
      rw [hprio₂, h2]
      decide

/-- Witness for C1 at a concrete input: with `DOMAIN-SUFFIX,example.com`
and `DOMAIN,other.net` both accepted, `other.net` is neither equal to nor a
subdomain of `example.com`. -/
theorem C1_witness :
    ¬(lowerS "other.net" = lowerS "example.com" ∨
      ∃ w : String, lowerS "other.net" = w ++ "." ++ lowerS "example.com") :=
  C1_suffix_eliminates_covered_domain
    ["DOMAIN-SUFFIX,example.com", "DOMAIN,other.net"]
    "DOMAIN-SUFFIX,example.com" "DOMAIN,other.net" "example.com" "other.net"
    (by decide) (by decide) (by decide) (by decide)

/-- C2 counterexample: the pattern `^ads\.` matches `ads.example.com`
verbatim, yet the engine keeps the `DOMAIN,ads.example.com` rule — no
regex-based coverage is performed. -/
theorem C2_counterexample :
    caretAdsDotMatches "ads.example.com" = true ∧
    "DOMAIN,ads.example.com" ∈
      deduplicate_rules ["URL-REGEX,^ads\\.", "DOMAIN,ads.example.com"] := by
  constructor
  · decide
  · decide

/-- C2 (amended): the deduplication engine performs no pattern coverage —
a `DOMAIN` rule surviving the exact-collapse pass appears in the output if
and only if no accepted `DOMAIN-SUFFIX` covers it; `URL-REGEX` rules never
cause a `DOMAIN` rule's elimination. -/
theorem C2_amended_no_regex_coverage (rs : List String) (e : String × Int × String)
    (v : String) (he : e ∈ pass1 rs)
    (hp : parse_rule e.2.2 = some ("DOMAIN", v)) :
    e.2.2 ∈ deduplicate_rules rs ↔
      coveredBySuffix (suffixMap (pass1 rs)) e.2.1 (lowerS v) = false := by
  have hWF := pass1_entryWF rs
  have hnd := pass1_nodup_keys rs
  constructor
  · intro hmem
    obtain ⟨e', he', hk', hv'⟩ := mem_deduplicate_iff.mp hmem
    have hpe' : parse_rule e'.2.2 = some ("DOMAIN", v) := by rw [hv']; exact hp
    have hkeq : e'.1 = e.1 := by
      rw [entry_domain_key (hWF e' he') hpe', entry_domain_key (hWF e he) hp]
    have hee := mem_unique_of_nodup_keys hnd he' he hkeq
    rw [hee] at hk'
    unfold keepB at hk'
    simp only [hp, decide_eq_true_eq] at hk'
    cases hcov : coveredBySuffix (suffixMap (pass1 rs)) e.2.1 (lowerS v) with
    | false => rfl
    | true => exact absurd ⟨trivial, hcov⟩ hk'
  · intro hcov
    apply mem_deduplicate_iff.mpr
    refine ⟨e, he, ?_, rfl⟩
    unfold keepB
    simp only [hp, decide_eq_true_eq]
    rintro ⟨_, hc⟩
    rw [hcov] at hc
    exact absurd hc (by simp)

/-- Witness for the amended C2 at the concrete counterexample input. -/
theorem C2_witness :
    ("DOMAIN,ads.example.com" : String) ∈
      deduplicate_rules ["URL-REGEX,^ads\\.", "DOMAIN,ads.example.com"] ↔
    coveredBySuffix
      (suffixMap (pass1 ["URL-REGEX,^ads\\.", "DOMAIN,ads.example.com"])) 1
      (lowerS "ads.example.com") = false :=
  C2_amended_no_regex_coverage ["URL-REGEX,^ads\\.", "DOMAIN,ads.example.com"]
    ("ads.example.com", 1, "DOMAIN,ads.example.com") "ads.example.com"
    (by decide) (by decide)

end GenerateRules

namespace GenerateRules

/-- C3 counterexample: with `DOMAIN-SUFFIX,example.com` and
`DOMAIN,mail.example.com`, the group of rules with normalized value
`mail.example.com` is the non-empty singleton `DOMAIN,mail.example.com`,
yet the engine's output keeps no rule of that group — not "exactly one". -/
theorem C3_counterexample :
    groupFor ["DOMAIN-SUFFIX,example.com", "DOMAIN,mail.example.com"] "mail.example.com" =
      ["DOMAIN,mail.example.com"] ∧
    deduplicate_rules ["DOMAIN-SUFFIX,example.com", "DOMAIN,mail.example.com"] =
      ["DOMAIN-SUFFIX,example.com"] ∧
    "DOMAIN,mail.example.com" ∉
      deduplicate_rules ["DOMAIN-SUFFIX,example.com", "DOMAIN,mail.example.com"] := by
  refine ⟨by decide, by decide, by decide⟩

/-- C3 (amended): the exact-collapse pass keeps exactly one rule per
normalized value — the slot of key `k` holds the first-seen rule of the
highest priority occurring in `k`'s group (so a strictly higher-priority
kind displaces an earlier rule, and ties keep the first seen), and the
pass-1 keys are pairwise distinct.  The later coverage pass may still
remove that rule when it is a covered `DOMAIN` rule, so the final output
retains at most one rule per value, not always exactly one. -/
theorem C3_amended_pass1_keeps_first_of_max (rs : List String) (k : String) :
    ((pass1 rs).map Prod.fst).Nodup ∧
    lookupA k (pass1 rs) =
      ((groupFor rs k).find? fun x => decide (prioOf x = groupMax (groupFor rs k))).map
        fun x => (groupMax (groupFor rs k), x) := by
  refine ⟨pass1_nodup_keys rs, ?_⟩
  rw [lookupA_pass1]
  apply pickGroup_spec
  intro r hr
  unfold groupFor at hr
  rw [List.mem_filter, decide_eq_true_eq] at hr
  have hk := hr.2
  unfold keyOf at hk
  cases hp : parse_rule r with
  | none => rw [hp] at hk; simp at hk
  | some tv => simp

/-- C5 counterexample: `DOMAIN-SUFFIX,example.com` does NOT eliminate the
descendant `DOMAIN-SUFFIX,mail.example.com` (whose value ends with
`".example.com"`): both survive. -/
theorem C5_counterexample :
    deduplicate_rules ["DOMAIN-SUFFIX,example.com", "DOMAIN-SUFFIX,mail.example.com"] =
      ["DOMAIN-SUFFIX,example.com", "DOMAIN-SUFFIX,mail.example.com"] ∧
    "DOMAIN-SUFFIX,mail.example.com" ∈
      deduplicate_rules ["DOMAIN-SUFFIX,example.com", "DOMAIN-SUFFIX,mail.example.com"] ∧
    ("mail.example.com" : String) = "mail" ++ "." ++ "example.com" := by
  refine ⟨by decide, by decide, by decide⟩

/-- C5 (amended): the coverage pass never eliminates a `DOMAIN-SUFFIX`
rule (nor any non-`DOMAIN` rule): every rule surviving the exact-collapse
pass whose kind is not `DOMAIN` appears in the output.  In particular an
ancestor suffix does not eliminate a descendant suffix. -/
theorem C5_amended_suffix_never_eliminated (rs : List String) (e : String × Int × String)
    (t v : String) (he : e ∈ pass1 rs)
    (hp : parse_rule e.2.2 = some (t, v)) (ht : t ≠ "DOMAIN") :
    e.2.2 ∈ deduplicate_rules rs := by
  apply mem_deduplicate_iff.mpr
  refine ⟨e, he, ?_, rfl⟩
  unfold keepB
  simp only [hp, decide_eq_true_eq]
  rintro ⟨ht', _⟩
  exact ht ht'

/-- Witness for the amended C5: the descendant suffix rule survives. -/
theorem C5_witness :
    ("DOMAIN-SUFFIX,mail.example.com" : String) ∈
      deduplicate_rules ["DOMAIN-SUFFIX,example.com", "DOMAIN-SUFFIX,mail.example.com"] :=
  C5_amended_suffix_never_eliminated
    ["DOMAIN-SUFFIX,example.com", "DOMAIN-SUFFIX,mail.example.com"]
    ("mail.example.com", 2, "DOMAIN-SUFFIX,mail.example.com")
    "DOMAIN-SUFFIX" "mail.example.com" (by decide) (by decide) (by decide)

/-- C6 counterexample: the engine's output is sorted by the full rule line
(kind first), not primarily by normalized value: `DOMAIN,zzz.com` precedes
`DOMAIN-SUFFIX,aaa.com` in the output although its normalized value `zzz.com`
is lexicographically greater than `aaa.com`. -/
theorem C6_counterexample :
    deduplicate_rules ["DOMAIN,zzz.com", "DOMAIN-SUFFIX,aaa.com"] =
      ["DOMAIN,zzz.com", "DOMAIN-SUFFIX,aaa.com"] ∧
    specValueKindLE "DOMAIN,zzz.com" "DOMAIN-SUFFIX,aaa.com" = false := by
  refine ⟨by decide, by decide⟩

end GenerateRules

/-- C6 (amended): both the deduplication engine and the customization layer
emit lists sorted by the deterministic total order that compares whole rule
lines lexicographically by code point (kind name first, then value) — not
primarily by normalized value. -/
theorem C6_amended_sorted_by_full_line (rs rules app exc : List String) :
    List.Sorted strLE (GenerateRules.deduplicate_rules rs) ∧
    List.Sorted strLE (ProcessRules.apply_customizations rules app exc) := by
  constructor
  · rw [GenerateRules.deduplicate_rules_eq]
    exact List.sorted_insertionSort _ _
  · unfold ProcessRules.apply_customizations
    exact List.sorted_insertionSort _ _

namespace GenerateRules

/-! ### Pass 1 on inputs with pairwise-distinct normalized values -/

theorem foldl_insertRule_clean : ∀ (l : List String) (acc : List (String × Int × String)),
    (acc.map Prod.fst ++ l.filterMap keyOf).Nodup →
    l.foldl insertRule acc = acc ++ l.filterMap entryOf? := by
  intro l
  induction l with
  | nil => intro acc _; simp
  | cons r l' ih =>
    intro acc hnd
    rw [List.foldl_cons]
    cases hp : parse_rule r with
    | none =>
      have hkey : keyOf r = none := by unfold keyOf; rw [hp]; rfl
      have hent : entryOf? r = none := by unfold entryOf?; rw [hp]; rfl
      have hstep : insertRule acc r = acc := by simp only [insertRule, hp]
      rw [hstep, List.filterMap_cons_none hent]
      apply ih
      rwa [List.filterMap_cons_none hkey] at hnd
    | some tv =>
      obtain ⟨t, v⟩ := tv
      have hkey : keyOf r = some (normKey t v) := by unfold keyOf; rw [hp]; rfl
      have hent : entryOf? r = some (normKey t v, rulePriority t, r) := by
        unfold entryOf?; rw [hp]; rfl
      rw [List.filterMap_cons_some hkey] at hnd
      have hfresh : normKey t v ∉ acc.map Prod.fst := by
        intro hmem
        rw [List.nodup_append] at hnd
        exact hnd.2.2 hmem (List.mem_cons_self _ _)
      have hcur : curPrio (normKey t v) acc = -1 := by
        unfold curPrio
        rw [lookupA_eq_none_iff.mpr hfresh]
        rfl
      have hstep : insertRule acc r = acc ++ [(normKey t v, rulePriority t, r)] := by
        simp only [insertRule, hp]
        rw [if_pos (by rw [hcur]; have := rulePriority_nonneg t; omega)]
        exact updateA_of_not_mem _ hfresh
      rw [hstep, List.filterMap_cons_some hent]
      have hnd' : ((acc ++ [(normKey t v, rulePriority t, r)]).map Prod.fst ++
          l'.filterMap keyOf).Nodup := by
        rw [List.map_append, List.append_assoc]
        simpa using hnd
      rw [ih _ hnd', List.append_assoc]
      rfl

theorem pass1_clean {l : List String} (hnd : (l.filterMap keyOf).Nodup) :
    pass1 l = l.filterMap entryOf? := by
  have := foldl_insertRule_clean l [] (by simpa using hnd)
  simpa [pass1] using this

theorem mem_val_of_mem_filterMap_entryOf {l : List String} {e : String × Int × String}
    (he : e ∈ l.filterMap entryOf?) : e.2.2 ∈ l := by
  obtain ⟨r, hr, hfr⟩ := List.mem_filterMap.mp he
  unfold entryOf? at hfr
  cases hpr : parse_rule r with
  | none => rw [hpr] at hfr; simp at hfr
  | some tv =>
    rw [hpr] at hfr
    simp only [Option.map_some', Option.some.injEq] at hfr
    rw [← hfr]
    exact hr

theorem map_val_filterMap_entryOf : ∀ (l : List String),
    (∀ r ∈ l, (parse_rule r).isSome) →
    (l.filterMap entryOf?).map (fun e => e.2.2) = l := by
  intro l
  induction l with
  | nil => intro _; rfl
  | cons r l' ih =>
    intro hall
    obtain ⟨tv, hp⟩ := Option.isSome_iff_exists.mp (hall r (List.mem_cons_self _ _))
    have hent : entryOf? r = some (normKey tv.1 tv.2, rulePriority tv.1, r) := by
      unfold entryOf?; rw [hp]; rfl
    rw [List.filterMap_cons_some hent, List.map_cons,
      ih (fun x hx => hall x (List.mem_cons_of_mem _ hx))]

theorem filterMap_eq_map_of_forall {α β : Type} {f : α → Option β} {g : α → β} :
    ∀ {l : List α}, (∀ x ∈ l, f x = some (g x)) → l.filterMap f = l.map g := by
  intro l
  induction l with
  | nil => intro _; rfl
  | cons a l' ih =>
    intro hall
    rw [List.filterMap_cons_some (hall a (List.mem_cons_self _ _)), List.map_cons,
      ih (fun x hx => hall x (List.mem_cons_of_mem _ hx))]

theorem keyOf_val_of_entryWF {e : String × Int × String} (hWF : entryWF e) :
    keyOf e.2.2 = some e.1 := by
  obtain ⟨t, v, hp, hk, _⟩ := hWF
  unfold keyOf
  rw [hp, hk]
  rfl

theorem dedup_keys_nodup (rs : List String) :
    ((deduplicate_rules rs).filterMap keyOf).Nodup := by
  rw [deduplicate_rules_eq]
  refine ((List.perm_insertionSort strLE _).filterMap keyOf).symm.nodup ?_
  rw [List.filterMap_map]
  have hWF := pass1_entryWF rs
  have heq : ((pass1 rs).filter (keepB (suffixMap (pass1 rs)))).filterMap
      (keyOf ∘ fun e => e.2.2) =
      ((pass1 rs).filter (keepB (suffixMap (pass1 rs)))).map Prod.fst := by
    apply filterMap_eq_map_of_forall
    intro e he
    exact keyOf_val_of_entryWF (hWF e (List.mem_of_mem_filter he))
  rw [heq]
  exact (pass1_nodup_keys rs).sublist ((List.filter_sublist _).map Prod.fst)

theorem dedup_parseable (rs : List String) :
    ∀ r ∈ deduplicate_rules rs, (parse_rule r).isSome := by
  intro r hr
  obtain ⟨e, _, hk, hv⟩ := mem_deduplicate_iff.mp hr
  rw [← hv]
  exact keepB_parse_isSome hk

/-- C4: the deduplication engine is idempotent — running it on its own
output returns that output unchanged (no further eliminations, no
reordering). -/
theorem C4_deduplicate_idempotent (rs : List String) :
    deduplicate_rules (deduplicate_rules rs) = deduplicate_rules rs := by
  have hparse := dedup_parseable rs
  have hknd := dedup_keys_nodup rs
  have hpass1 : pass1 (deduplicate_rules rs) = (deduplicate_rules rs).filterMap entryOf? :=
    pass1_clean hknd
  have hWFo := pass1_entryWF (deduplicate_rules rs)
  have hndo := pass1_nodup_keys (deduplicate_rules rs)
  have hWF1 := pass1_entryWF rs
  have hnd1 := pass1_nodup_keys rs
  have hallkeep : ∀ e ∈ pass1 (deduplicate_rules rs),
      keepB (suffixMap (pass1 (deduplicate_rules rs))) e = true := by
    intro e he
    obtain ⟨t, v, hp, hk, hprio⟩ := hWFo e he
    unfold keepB
    simp only [hp, decide_eq_true_eq]
    rintro ⟨ht, hcov⟩
    subst ht
    have hval : e.2.2 ∈ deduplicate_rules rs := by
      rw [hpass1] at he
      exact mem_val_of_mem_filterMap_entryOf he
    obtain ⟨e₁, he₁, hk₁, hv₁⟩ := mem_deduplicate_iff.mp hval
    have hpe₁ : parse_rule e₁.2.2 = some ("DOMAIN", v) := by rw [hv₁]; exact hp
    have hprio₁ : e₁.2.1 = 1 := entry_domain_prio (hWF1 e₁ he₁) hpe₁
    unfold keepB at hk₁
    simp only [hpe₁, decide_eq_true_eq] at hk₁
    apply hk₁
    refine ⟨trivial, ?_⟩
    unfold coveredBySuffix at hcov ⊢
    rw [List.any_eq_true] at hcov ⊢
    obtain ⟨par, hparm, hpar⟩ := hcov
    refine ⟨par, hparm, ?_⟩
    cases hl₂ : lookupA par (suffixMap (pass1 (deduplicate_rules rs))) with
    | none => rw [hl₂] at hpar; simp at hpar
    | some sp =>
      rw [hl₂] at hpar
      obtain ⟨e', he', v', hpe', hs, hsp⟩ := lookupA_suffixMap_some hWFo hndo hl₂
      have hval' : e'.2.2 ∈ deduplicate_rules rs := by
        rw [hpass1] at he'
        exact mem_val_of_mem_filterMap_entryOf he'
      obtain ⟨e₁', he₁', hk₁', hv₁'⟩ := mem_deduplicate_iff.mp hval'
      have hpe₁' : parse_rule e₁'.2.2 = some ("DOMAIN-SUFFIX", v') := by
        rw [hv₁']; exact hpe'
      have hkey' : e'.1 = lowerS v' := entry_suffix_key (hWFo e' he') hpe'
      have hkey₁' : e₁'.1 = lowerS v' := entry_suffix_key (hWF1 e₁' he₁') hpe₁'
      have hl₁ : lookupA e₁'.1 (suffixMap (pass1 rs)) = some e₁'.2.1 :=
        lookupA_suffixMap_of_entry hWF1 hnd1 he₁' hpe₁'
      rw [hkey₁'] at hl₁
      rw [hs, hkey', hl₁]
      have h2 : e₁'.2.1 = 2 := entry_suffix_prio (hWF1 e₁' he₁') hpe₁'
      rw [hprio₁, h2]
      decide
  have hp2 : pass2 (pass1 (deduplicate_rules rs)) = pass1 (deduplicate_rules rs) := by
    rw [pass2_eq_filter hndo]
    exact List.filter_eq_self.mpr hallkeep
  have hout : deduplicate_rules (deduplicate_rules rs) =
      List.insertionSort strLE ((pass2 (pass1 (deduplicate_rules rs))).map fun e => e.2.2) :=
    rfl
  rw [hout, hp2, hpass1, map_val_filterMap_entryOf _ hparse]
  apply List.Sorted.insertionSort_eq
  rw [deduplicate_rules_eq]
  exact List.sorted_insertionSort _ _

end GenerateRules

namespace GenerateRules

theorem lookupA_eq_of_perm {β : Type} {m₁ m₂ : List (String × β)} (hperm : m₁.Perm m₂)
    (hnd : (m₁.map Prod.fst).Nodup) (s : String) : lookupA s m₁ = lookupA s m₂ := by
  have hnd₂ : (m₂.map Prod.fst).Nodup := (hperm.map Prod.fst).nodup hnd
  cases h₁ : lookupA s m₁ with
  | some v =>
    exact (lookupA_eq_some_of_mem hnd₂ (hperm.mem_iff.mp (mem_of_lookupA_eq_some h₁))).symm
  | none =>
    have h₂ : lookupA s m₂ = none := by
      rw [lookupA_eq_none_iff]
      intro hmem
      exact lookupA_eq_none_iff.mp h₁ ((hperm.map Prod.fst).mem_iff.mpr hmem)
    rw [h₂]

theorem coveredBySuffix_congr {m₁ m₂ : List (String × Int)}
    (h : ∀ s, lookupA s m₁ = lookupA s m₂) (p : Int) (d : String) :
    coveredBySuffix m₁ p d = coveredBySuffix m₂ p d := by
  unfold coveredBySuffix
  induction parentSuffixes d with
  | nil => rfl
  | cons par rest ih =>
    rw [List.any_cons, List.any_cons, ih, h par]

theorem keepB_congr {m₁ m₂ : List (String × Int)}
    (h : ∀ s, lookupA s m₁ = lookupA s m₂) (e : String × Int × String) :
    keepB m₁ e = keepB m₂ e := by
  unfold keepB
  cases hp : parse_rule e.2.2 with
  | none => rfl
  | some tv =>
    obtain ⟨t, v⟩ := tv
    simp only [hp, coveredBySuffix_congr h]

/-- C9 counterexample: the two inputs are permutations of one another, yet
the engine's outputs differ byte-wise — when two distinct lines share a
normalized value with equal priority, the first-seen line wins. -/
theorem C9_counterexample :
    (["DOMAIN,Foo.com", "DOMAIN,foo.com"] : List String).Perm
      ["DOMAIN,foo.com", "DOMAIN,Foo.com"] ∧
    deduplicate_rules ["DOMAIN,Foo.com", "DOMAIN,foo.com"] = ["DOMAIN,Foo.com"] ∧
    deduplicate_rules ["DOMAIN,foo.com", "DOMAIN,Foo.com"] = ["DOMAIN,foo.com"] ∧
    (["DOMAIN,Foo.com"] : List String) ≠ ["DOMAIN,foo.com"] := by
  refine ⟨by decide, by decide, by decide, by decide⟩

/-- C9 (amended): the engine's output is independent of the input ordering
whenever no two parseable lines share a normalized value: for permuted
inputs whose parseable lines have pairwise-distinct normalized values, the
two runs produce byte-identical sorted output.  (When distinct lines share
a value with equal priority, the first-seen line is kept and permutations
can differ, as the counterexample shows.) -/
theorem C9_amended_perm_invariance_of_distinct_keys (l₁ l₂ : List String)
    (hperm : l₁.Perm l₂) (hnd : (l₁.filterMap keyOf).Nodup) :
    deduplicate_rules l₁ = deduplicate_rules l₂ := by
  have hnd₂ : (l₂.filterMap keyOf).Nodup := (hperm.filterMap keyOf).nodup hnd
  have hp₁ : pass1 l₁ = l₁.filterMap entryOf? := pass1_clean hnd
  have hp₂ : pass1 l₂ = l₂.filterMap entryOf? := pass1_clean hnd₂
  have hpp : (pass1 l₁).Perm (pass1 l₂) := by
    rw [hp₁, hp₂]
    exact hperm.filterMap entryOf?
  have hWF₁ := pass1_entryWF l₁
  have hWF₂ := pass1_entryWF l₂
  have hknd₁ := pass1_nodup_keys l₁
  have hknd₂ := pass1_nodup_keys l₂
  have hcands : (suffixCands (pass1 l₁)).Perm (suffixCands (pass1 l₂)) := hpp.filterMap _
  have hlook : ∀ s, lookupA s (suffixMap (pass1 l₁)) = lookupA s (suffixMap (pass1 l₂)) := by
    intro s
    rw [suffixMap_eq hWF₁ hknd₁, suffixMap_eq hWF₂ hknd₂]
    exact lookupA_eq_of_perm hcands (suffixCands_keys_nodup hWF₁ hknd₁) s
  rw [deduplicate_rules_eq, deduplicate_rules_eq]
  apply List.eq_of_perm_of_sorted ?_ (List.sorted_insertionSort _ _)
    (List.sorted_insertionSort _ _)
  refine ((List.perm_insertionSort _ _).trans ?_).trans
    (List.perm_insertionSort _ _).symm
  apply List.Perm.map
  have hfilter₂ : (pass1 l₂).filter (keepB (suffixMap (pass1 l₁))) =
      (pass1 l₂).filter (keepB (suffixMap (pass1 l₂))) := by
    apply List.filter_congr
    intro e _
    rw [keepB_congr hlook]
  rw [← hfilter₂]
  exact hpp.filter _

end GenerateRules

namespace ProcessRules

theorem mem_foldl_pySet : ∀ (l : List String) (acc : List String) (x : String),
    (x ∈ l.foldl (fun acc x => if x ∈ acc then acc else acc ++ [x]) acc) ↔
      x ∈ acc ∨ x ∈ l := by
  intro l
  induction l with
  | nil => intro acc x; simp
  | cons y l' ih =>
    intro acc x
    rw [List.foldl_cons]
    by_cases hy : y ∈ acc
    · rw [if_pos hy, ih]
      constructor
      · rintro (h | h)
        · exact Or.inl h
        · exact Or.inr (List.mem_cons_of_mem _ h)
      · rintro (h | h)
        · exact Or.inl h
        · rcases List.mem_cons.mp h with rfl | h'
          · exact Or.inl hy
          · exact Or.inr h'
    · rw [if_neg hy, ih]
      constructor
      · rintro (h | h)
        · rcases List.mem_append.mp h with h' | h'
          · exact Or.inl h'
          · exact Or.inr (List.mem_cons.mpr (Or.inl (List.mem_singleton.mp h')))
        · exact Or.inr (List.mem_cons_of_mem _ h)
      · rintro (h | h)
        · exact Or.inl (List.mem_append.mpr (Or.inl h))
        · rcases List.mem_cons.mp h with rfl | h'
          · exact Or.inl (List.mem_append.mpr (Or.inr (List.mem_singleton.mpr rfl)))
          · exact Or.inr h'

theorem mem_pySetList {l : List String} {x : String} : x ∈ pySetList l ↔ x ∈ l := by
  unfold pySetList
  rw [mem_foldl_pySet]
  simp

/-- C7 counterexample: the exclude entry `foo.com` matches the normalized
value of the rule `DOMAIN,foo.com` exactly, yet the rule remains in the
output — exclusion compares entire rule lines, not normalized values. -/
theorem C7_counterexample :
    apply_customizations ["DOMAIN,foo.com"] [] ["foo.com"] = ["DOMAIN,foo.com"] ∧
    GenerateRules.parse_rule "DOMAIN,foo.com" = some ("DOMAIN", "foo.com") ∧
    GenerateRules.normKey "DOMAIN" "foo.com" = "foo.com" ∧
    ("foo.com" : String) ∈ (["foo.com"] : List String) := by
  refine ⟨by decide, by decide, by decide, by decide⟩

/-- C7 (amended): the customization layer removes exactly those rules whose
entire line literally equals an exclude-list entry (kind and value must both
match): a line appears in the output iff it occurs among the deduplicated
rules or the append list and does not occur in the exclude list. -/
theorem C7_amended_exclude_matches_whole_line (rules app exc : List String) (r : String) :
    r ∈ apply_customizations rules app exc ↔ ((r ∈ rules ∨ r ∈ app) ∧ r ∉ exc) := by
  unfold apply_customizations
  rw [List.mem_insertionSort, List.mem_filter, mem_pySetList, List.mem_append,
    decide_eq_true_eq]

/-- C10: a line occurring in both the append list and the exclude list is
absent from the customization layer's output — exclusion is applied after
the append union, so exclusion wins. -/
theorem C10_exclude_wins_over_append (rules app exc : List String) (x : String)
    (ha : x ∈ app) (he : x ∈ exc) : x ∉ apply_customizations rules app exc := by
  intro hmem
  unfold apply_customizations at hmem
  rw [List.mem_insertionSort, List.mem_filter, decide_eq_true_eq] at hmem
  exact hmem.2 he

/-- Witness for C10 at a concrete input. -/
theorem C10_witness :
    ("DOMAIN,b.com" : String) ∉
      apply_customizations ["DOMAIN,a.com"] ["DOMAIN,b.com"] ["DOMAIN,b.com"] :=
  C10_exclude_wins_over_append ["DOMAIN,a.com"] ["DOMAIN,b.com"] ["DOMAIN,b.com"]
    "DOMAIN,b.com" (by decide) (by decide)

end ProcessRules

theorem splitAllL_no_sep {sep : Char} : ∀ {l : List Char}, sep ∉ l →
    splitAllL sep l = [l] := by
  intro l
  induction l with
  | nil => intro _; rfl
  | cons c cs ih =>
    intro h
    have hc : ¬c = sep := fun e => h (e ▸ List.mem_cons_self _ _)
    have hcs : sep ∉ cs := fun m => h (List.mem_cons_of_mem _ m)
    simp only [splitAllL, if_neg hc, ih hcs]

theorem splitAll_ip_line (K v : String) (hKc : ',' ∉ K.data) (hvc : ',' ∉ v.data) :
    splitAllL ',' (K ++ "," ++ v ++ ",no-resolve").data =
      [K.data, v.data, ("no-resolve" : String).data] := by
  have hdata : (K ++ "," ++ v ++ ",no-resolve").data =
      K.data ++ ',' :: (v.data ++ ',' :: ("no-resolve" : String).data) := by
    simp
  rw [hdata, splitAllL_append, splitAllL_append, splitAllL_no_sep hKc, splitAllL_no_sep hvc]
  rw [splitAllL_no_sep (by decide)]
  rfl

theorem strip_ip_line (K v : String) (hKs : stripL K.data = K.data) (hKne : K ≠ "") :
    stripL (K ++ "," ++ v ++ ",no-resolve").data = (K ++ "," ++ v ++ ",no-resolve").data := by
  obtain ⟨c, ks, hK⟩ : ∃ c ks, K.data = c :: ks := by
    cases hKd : K.data with
    | nil => exact absurd (String.ext hKd) hKne
    | cons c ks => exact ⟨c, ks, rfl⟩
  have hdata : (K ++ "," ++ v ++ ",no-resolve").data =
      K.data ++ ',' :: (v.data ++ ',' :: ("no-resolve" : String).data) := by
    simp
  rw [hdata]
  apply stripL_eq_self
  · intro d hd
    rw [hK] at hd
    simp only [List.cons_append, List.head?_cons, Option.some.injEq] at hd
    have hKhead : K.data.head? = some d := by rw [hK, hd]; rfl
    rw [← hKs] at hKhead
    exact stripL_head_false hKhead
  · intro d hd
    have hshape : K.data ++ ',' :: (v.data ++ ',' :: ("no-resolve" : String).data) =
        (K.data ++ ',' :: v.data ++ [',']) ++ ("no-resolve" : String).data := by
      simp
    rw [hshape, List.reverse_append] at hd
    have hrev : (("no-resolve" : String).data.reverse).head? = some 'e' := by decide
    rw [List.head?_append, hrev] at hd
    simp only [Option.or_some, Option.some.injEq] at hd
    rw [← hd]
    rfl

theorem process_go_ip_line (K v : String)
    (hKs : stripL K.data = K.data) (hKne : K ≠ "") (hKc : ',' ∉ K.data)
    (hKhead : ∀ c, K.data.head? = some c → (c ≠ '#' ∧ c ≠ '['))
    (hKip : K ∈ ProcessRules.IP_TYPES)
    (hvs : stripL v.data = v.data) (hvc : ',' ∉ v.data) :
    ProcessRules.process_rules_go true [K ++ "," ++ v ++ ",no-resolve"] =
      [K ++ "," ++ v ++ ",no-resolve"] := by
  obtain ⟨c, ks, hK⟩ : ∃ c ks, K.data = c :: ks := by
    cases hKd : K.data with
    | nil => exact absurd (String.ext hKd) hKne
    | cons c ks => exact ⟨c, ks, rfl⟩
  have hc := hKhead c (by rw [hK]; rfl)
  have hline : pyStrip (K ++ "," ++ v ++ ",no-resolve") = K ++ "," ++ v ++ ",no-resolve" := by
    unfold pyStrip
    rw [strip_ip_line K v hKs hKne]
  have hne : ¬(K ++ "," ++ v ++ ",no-resolve" = "") := by
    intro heq
    have hd := congrArg String.data heq
    simp only [String.data_append] at hd
    rw [hK] at hd
    simp at hd
  have hhash : startsWithL (K ++ "," ++ v ++ ",no-resolve").data ['#'] = false := by
    have hd : (K ++ "," ++ v ++ ",no-resolve").data =
        c :: (ks ++ ("," ++ v ++ ",no-resolve").data) := by
      simp only [String.data_append]
      rw [hK]
      simp
    rw [hd]
    simp [startsWithL, hc.1]
  have hrule : ¬(K ++ "," ++ v ++ ",no-resolve" = "[Rule]") := by
    intro heq
    have hd := congrArg String.data heq
    simp only [String.data_append] at hd
    rw [hK] at hd
    simp only [List.cons_append] at hd
    have hhd := congrArg List.head? hd
    simp only [List.head?_cons] at hhd
    have : c = '[' := by
      have : some c = some '[' := by
        rw [hhd]
      exact Option.some.inj this
    exact hc.2 this
  simp only [ProcessRules.process_rules_go, hline, if_neg hne, hhash, Bool.false_eq_true,
    if_neg hrule, if_pos rfl]
  rw [splitAll_ip_line K v hKc hvc]
  have hKmk : (⟨stripL K.data⟩ : String) = K := by rw [hKs]
  have hvmk : (⟨stripL v.data⟩ : String) = v := by rw [hvs]
  simp only [hKmk, hvmk]
  rw [if_pos hKip]
  rfl

theorem noResolveCount_ip_line (K v : String) (hKc : ',' ∉ K.data) (hvc : ',' ∉ v.data)
    (hK : K.data ≠ ("no-resolve" : String).data) (hv : v.data ≠ ("no-resolve" : String).data) :
    noResolveCount (K ++ "," ++ v ++ ",no-resolve") = 1 := by
  unfold noResolveCount
  rw [splitAll_ip_line K v hKc hvc]
  simp [hK, hv]

/-- C8 counterexample: the annotation step of `update_rules.generate_rule_files`
appends `,no-resolve` unconditionally to any rule containing `IP-CIDR`, so a
rule already carrying the modifier ends up with two copies. -/
theorem C8_counterexample :
    UpdateRules.addNoResolve ["IP-CIDR,1.2.3.4,no-resolve"] =
      ["IP-CIDR,1.2.3.4,no-resolve,no-resolve"] ∧
    noResolveCount "IP-CIDR,1.2.3.4,no-resolve,no-resolve" = 2 := by
  refine ⟨by decide, by decide⟩

/-- C8 (amended): the annotation step of `process_rules.process_rules` is
idempotent — an IP-kind rule line already carrying a `no-resolve` modifier is
re-emitted verbatim with exactly one modifier (the line is rebuilt from its
first two fields and one `no-resolve` is re-attached) — whereas the
annotation step of `update_rules.generate_rule_files` appends
unconditionally and duplicates an existing modifier (see the
counterexample). -/
theorem C8_amended_process_annotation_idempotent (t v : String)
    (ht : t ∈ ProcessRules.IP_TYPES)
    (hvs : stripL v.data = v.data) (hvc : ',' ∉ v.data) (hvnr : v ≠ "no-resolve") :
    ProcessRules.process_rules_go true [t ++ "," ++ v ++ ",no-resolve"] =
      [t ++ "," ++ v ++ ",no-resolve"] ∧
    noResolveCount (t ++ "," ++ v ++ ",no-resolve") = 1 := by
  have hvd : v.data ≠ ("no-resolve" : String).data := fun e => hvnr (String.ext e)
  have ht' : t = "IP-ASN" ∨ t = "IP-CIDR" ∨ t = "IP-CIDR6" := by
    simpa [ProcessRules.IP_TYPES] using ht
  rcases ht' with rfl | rfl | rfl
  · exact ⟨process_go_ip_line _ v (by decide) (by decide) (by decide)
      (fun c hc => by rw [show c = 'I' from Option.some.inj hc.symm]; exact ⟨by decide, by decide⟩)
      (by decide) hvs hvc,
      noResolveCount_ip_line _ v (by decide) hvc (by decide) hvd⟩
  · exact ⟨process_go_ip_line _ v (by decide) (by decide) (by decide)
      (fun c hc => by rw [show c = 'I' from Option.some.inj hc.symm]; exact ⟨by decide, by decide⟩)
      (by decide) hvs hvc,
      noResolveCount_ip_line _ v (by decide) hvc (by decide) hvd⟩
  · exact ⟨process_go_ip_line _ v (by decide) (by decide) (by decide)
      (fun c hc => by rw [show c = 'I' from Option.some.inj hc.symm]; exact ⟨by decide, by decide⟩)
      (by decide) hvs hvc,
      noResolveCount_ip_line _ v (by decide) hvc (by decide) hvd⟩

/-- Witness for the amended C8 at a concrete IP rule. -/
theorem C8_witness :
    ProcessRules.process_rules_go true ["IP-CIDR" ++ "," ++ "1.2.3.4" ++ ",no-resolve"] =
      ["IP-CIDR" ++ "," ++ "1.2.3.4" ++ ",no-resolve"] ∧
    noResolveCount ("IP-CIDR" ++ "," ++ "1.2.3.4" ++ ",no-resolve") = 1 :=
  C8_amended_process_annotation_idempotent "IP-CIDR" "1.2.3.4"
    (by decide) (by decide) (by decide) (by decide)

namespace GenerateRules

/-- Witness for the amended C9: two permuted inputs with distinct
normalized values produce identical output. -/
theorem C9_witness :
    deduplicate_rules ["DOMAIN,bbb.com", "DOMAIN,aaa.com"] =
      deduplicate_rules ["DOMAIN,aaa.com", "DOMAIN,bbb.com"] :=
  C9_amended_perm_invariance_of_distinct_keys
    ["DOMAIN,bbb.com", "DOMAIN,aaa.com"] ["DOMAIN,aaa.com", "DOMAIN,bbb.com"]
    (by decide) (by decide)

end GenerateRules
